import Mathlib

/-!
Verification of the `path_env` crate: a shallow embedding of the split
algorithm (`src/split.rs`), the `PathEnv` container (`src/lib.rs`), the
comparison semantics (`src/cmp.rs`) and `normalize`, with theorems
settling the specification claims.

Bytes are modelled as `List Nat` (content is opaque bytes).  The build
targets Unix-like systems, where the separator byte is `b':'` = 58.
-/

namespace PathEnvCrate

/-- The `PATH` separator as a byte, `b':'` on Unix-like systems
(`separator::U8` in `src/separator.rs`). -/
def separator.U8 : Nat := 58

/-- Raw byte strings (the contents of an `OsStr`). -/
abbrev Bytes := List Nat

/-- `bytes.iter().position(|&b| b == crate::separator::U8)`: index of the
first separator byte, if any (the `next_separator` helper inside
`PathEnvSplit::next`). -/
def next_separator : Bytes → Option Nat
  | [] => none
  | b :: bs => if b = separator.U8 then some 0 else (next_separator bs).map (· + 1)

/-- `bytes.iter().rev().position(|&b| b == crate::separator::U8)`: position of
the first separator byte of the reversed byte string (the `next_separator`
helper inside `PathEnvSplit::next_back`).  Note this is an index counted from
the back of `bytes`, not from the front. -/
def next_separator_back (bytes : Bytes) : Option Nat :=
  next_separator bytes.reverse

theorem next_separator_lt {s : Bytes} {i : Nat}
    (h : next_separator s = some i) : i < s.length := by
  induction s generalizing i with
  | nil => simp [next_separator] at h
  | cons b bs ih =>
    simp only [next_separator] at h
    by_cases hb : b = separator.U8
    · rw [if_pos hb] at h
      cases h
      simp
    · rw [if_neg hb] at h
      simp only [Option.map_eq_some'] at h
      obtain ⟨j, hj, rfl⟩ := h
      have := ih hj
      simp
      omega

theorem next_separator_back_lt {s : Bytes} {i : Nat}
    (h : next_separator_back s = some i) : i < s.length := by
  have := next_separator_lt h
  simpa using this

/-- `PathEnvSplit::next` (src/split.rs:88-124).  The iterator state is the
remaining byte string `self.0`; the function returns the yielded item
together with the new state.  The `while let Some(i) = next_separator(path)`
loop takes `next = &path[..i]`, advances `path = &path[(i+1)..]`, skips the
piece if it is empty, and otherwise yields it; when no separator remains, the
state becomes empty and the leftover bytes are yielded unless empty. -/
def PathEnvSplit.next (path : Bytes) : Option Bytes × Bytes :=
  match h : next_separator path with
  | some i =>
    if (path.take i).isEmpty then
      PathEnvSplit.next (path.drop (i + 1))
    else
      (some (path.take i), path.drop (i + 1))
  | none =>
    if path.isEmpty then (none, []) else (some path, [])
termination_by path.length
decreasing_by
  have := next_separator_lt h
  simp
  omega

/-- `PathEnvSplit::next_back` (src/split.rs:151-179).  Same state convention
as `PathEnvSplit.next`.  The source computes `i` with
`bytes.iter().rev().position(..)` (an index counted from the back) and then
slices `next = &path[(i+1)..]`, `path = &path[..i]` with it. -/
def PathEnvSplit.next_back (path : Bytes) : Option Bytes × Bytes :=
  match h : next_separator_back path with
  | some i =>
    if (path.drop (i + 1)).isEmpty then
      PathEnvSplit.next_back (path.take i)
    else
      (some (path.drop (i + 1)), path.take i)
  | none =>
    if path.isEmpty then (none, []) else (some path, [])
termination_by path.length
decreasing_by
  have := next_separator_back_lt h
  simp
  omega

theorem next_of_ns_none {path : Bytes} (h : next_separator path = none) :
    PathEnvSplit.next path = if path.isEmpty then (none, []) else (some path, []) := by
  rw [PathEnvSplit.next.eq_def]
  split
  next i heq => rw [h] at heq; cases heq
  next heq => rfl

theorem next_of_ns_zero {path : Bytes} (h : next_separator path = some 0) :
    PathEnvSplit.next path = PathEnvSplit.next (path.drop 1) := by
  rw [PathEnvSplit.next.eq_def]
  split
  next i heq =>
    rw [h] at heq
    injection heq with heq
    subst heq
    simp
  next heq => rw [h] at heq; cases heq

theorem next_of_ns_some {path : Bytes} {i : Nat} (h : next_separator path = some i)
    (hi : i ≠ 0) :
    PathEnvSplit.next path = (some (path.take i), path.drop (i + 1)) := by
  have hlt := next_separator_lt h
  rw [PathEnvSplit.next.eq_def]
  split
  next j heq =>
    rw [h] at heq
    injection heq with heq
    subst heq
    rw [if_neg]
    simp only [List.isEmpty_iff, List.take_eq_nil_iff]
    rintro (rfl | rfl)
    · exact hi rfl
    · simp at hlt
  next heq => rw [h] at heq; cases heq

theorem next_some_lt :
    ∀ (n : Nat) (s : Bytes), s.length ≤ n →
      ∀ {x : Bytes} {t : Bytes}, PathEnvSplit.next s = (some x, t) →
        t.length < s.length := by
  intro n
  induction n with
  | zero =>
    intro s hs x t h
    have hnil : s = [] := by
      cases s with
      | nil => rfl
      | cons a l => simp at hs
    subst hnil
    rw [next_of_ns_none (by rfl)] at h
    simp at h
  | succ n ih =>
    intro s hs x t h
    match hns : next_separator s with
    | none =>
      rw [next_of_ns_none hns] at h
      by_cases he : s.isEmpty
      · rw [if_pos he] at h; cases h
      · rw [if_neg he] at h
        injection h with h1 h2
        subst h2
        simp only [List.isEmpty_iff] at he
        cases s with
        | nil => exact absurd rfl he
        | cons a l => simp
    | some 0 =>
      rw [next_of_ns_zero hns] at h
      have hpos : 0 < s.length := next_separator_lt hns
      have hdrop : (s.drop 1).length ≤ n := by simp; omega
      have := ih (s.drop 1) hdrop h
      simp at this
      omega
    | some (i + 1) =>
      rw [next_of_ns_some hns (by omega)] at h
      injection h with h1 h2
      subst h2
      have hlt := next_separator_lt hns
      simp
      omega

/-- Repeated `PathEnvSplit::next` until `None`: the full forward iteration
sequence of `split(s)`. -/
def splitForward (s : Bytes) : List Bytes :=
  match h : PathEnvSplit.next s with
  | (none, _) => []
  | (some x, t) => x :: splitForward t
termination_by s.length
decreasing_by
  exact next_some_lt s.length s (Nat.le_refl _) h

theorem splitForward_of_next_none {s t : Bytes}
    (h : PathEnvSplit.next s = (none, t)) : splitForward s = [] := by
  rw [splitForward.eq_def]
  split
  next heq => rfl
  next x u heq => rw [h] at heq; cases heq

theorem splitForward_of_next_some {s x t : Bytes}
    (h : PathEnvSplit.next s = (some x, t)) :
    splitForward s = x :: splitForward t := by
  rw [splitForward.eq_def]
  split
  next heq => rw [h] at heq; cases heq
  next y u heq =>
    rw [h] at heq
    injection heq with h1 h2
    injection h1 with h1
    subst h1; subst h2
    rfl

theorem next_back_some_lt :
    ∀ (n : Nat) (s : Bytes), s.length ≤ n →
      ∀ {x : Bytes} {t : Bytes}, PathEnvSplit.next_back s = (some x, t) →
        t.length < s.length := by
  intro n
  induction n with
  | zero =>
    intro s hs x t h
    have hnil : s = [] := by
      cases s with
      | nil => rfl
      | cons a l => simp at hs
    subst hnil
    rw [PathEnvSplit.next_back.eq_def] at h
    simp [next_separator_back, next_separator] at h
  | succ n ih =>
    intro s hs x t h
    rw [PathEnvSplit.next_back.eq_def] at h
    split at h
    next i heq =>
      have hlt := next_separator_back_lt heq
      split at h
      · have htake : (s.take i).length ≤ n := by simp; omega
        have := ih (s.take i) htake h
        simp at this ⊢
        omega
      · injection h with h1 h2
        subst h2
        simp
        omega
    next heq =>
      by_cases he : s.isEmpty
      · rw [if_pos he] at h; cases h
      · rw [if_neg he] at h
        injection h with h1 h2
        subst h2
        simp only [List.isEmpty_iff] at he
        cases s with
        | nil => exact absurd rfl he
        | cons a l => simp

/-- Repeated `PathEnvSplit::next_back` until `None`: the full backward
iteration sequence of `split(s)` (`split(s).rev().collect()`). -/
def splitBackward (s : Bytes) : List Bytes :=
  match h : PathEnvSplit.next_back s with
  | (none, _) => []
  | (some x, t) => x :: splitBackward t
termination_by s.length
decreasing_by
  exact next_back_some_lt s.length s (Nat.le_refl _) h

theorem splitBackward_of_next_back_none {s t : Bytes}
    (h : PathEnvSplit.next_back s = (none, t)) : splitBackward s = [] := by
  rw [splitBackward.eq_def]
  split
  next heq => rfl
  next x u heq => rw [h] at heq; cases heq

theorem splitBackward_of_next_back_some {s x t : Bytes}
    (h : PathEnvSplit.next_back s = (some x, t)) :
    splitBackward s = x :: splitBackward t := by
  rw [splitBackward.eq_def]
  split
  next heq => rw [h] at heq; cases heq
  next y u heq =>
    rw [h] at heq
    injection heq with h1 h2
    injection h1 with h1
    subst h1; subst h2
    rfl

/-- Splitting on every separator byte, keeping empty runs: the list of maximal
(possibly empty) runs between separator bytes, in left-to-right order.
Spec-side definition, used to state what the split algorithm must produce. -/
def splitAllKeepEmpty : Bytes → List Bytes
  | [] => [[]]
  | b :: bs =>
    if b = separator.U8 then [] :: splitAllKeepEmpty bs
    else
      match splitAllKeepEmpty bs with
      | q :: qs => (b :: q) :: qs
      | [] => [[b]]

/-- The maximal non-empty runs between separator bytes, in left-to-right
order: the specification of the split output. -/
def splitSpec (s : Bytes) : List Bytes :=
  (splitAllKeepEmpty s).filter (fun q => !q.isEmpty)

theorem splitAllKeepEmpty_ne_nil (s : Bytes) : splitAllKeepEmpty s ≠ [] := by
  cases s with
  | nil => simp [splitAllKeepEmpty]
  | cons b bs =>
    simp only [splitAllKeepEmpty]
    by_cases hb : b = separator.U8
    · simp [hb]
    · rw [if_neg hb]
      match h : splitAllKeepEmpty bs with
      | q :: qs => simp
      | [] => simp

theorem next_separator_cons_none {b : Nat} {bs : Bytes}
    (h : next_separator (b :: bs) = none) :
    b ≠ separator.U8 ∧ next_separator bs = none := by
  simp only [next_separator] at h
  by_cases hb : b = separator.U8
  · rw [if_pos hb] at h; cases h
  · rw [if_neg hb] at h
    refine ⟨hb, ?_⟩
    cases hns : next_separator bs with
    | none => rfl
    | some j => rw [hns] at h; simp at h

theorem next_separator_cons_zero {b : Nat} {bs : Bytes}
    (h : next_separator (b :: bs) = some 0) : b = separator.U8 := by
  by_cases hb : b = separator.U8
  · exact hb
  · simp only [next_separator, if_neg hb] at h
    cases hns : next_separator bs with
    | none => rw [hns] at h; cases h
    | some j => rw [hns] at h; simp at h

theorem next_separator_cons_succ {b : Nat} {bs : Bytes} {i : Nat}
    (h : next_separator (b :: bs) = some (i + 1)) :
    b ≠ separator.U8 ∧ next_separator bs = some i := by
  by_cases hb : b = separator.U8
  · simp [next_separator, if_pos hb] at h
  · simp only [next_separator, if_neg hb] at h
    cases hns : next_separator bs with
    | none => rw [hns] at h; cases h
    | some j =>
      rw [hns] at h
      simp at h
      exact ⟨hb, by rw [h]⟩

theorem splitAllKeepEmpty_of_ns_none {s : Bytes}
    (h : next_separator s = none) : splitAllKeepEmpty s = [s] := by
  induction s with
  | nil => simp [splitAllKeepEmpty]
  | cons b bs ih =>
    obtain ⟨hb, hbs⟩ := next_separator_cons_none h
    rw [splitAllKeepEmpty, if_neg hb, ih hbs]

theorem splitAllKeepEmpty_of_ns_some {s : Bytes} {i : Nat}
    (h : next_separator s = some i) :
    splitAllKeepEmpty s = s.take i :: splitAllKeepEmpty (s.drop (i + 1)) := by
  induction s generalizing i with
  | nil => simp [next_separator] at h
  | cons b bs ih =>
    cases i with
    | zero =>
      have hb := next_separator_cons_zero h
      rw [splitAllKeepEmpty, if_pos hb]
      simp
    | succ i =>
      obtain ⟨hb, hbs⟩ := next_separator_cons_succ h
      rw [splitAllKeepEmpty, if_neg hb, ih hbs]
      simp

theorem splitSpec_of_ns_none {s : Bytes} (h : next_separator s = none) :
    splitSpec s = if s.isEmpty then [] else [s] := by
  rw [splitSpec, splitAllKeepEmpty_of_ns_none h]
  by_cases he : s.isEmpty
  · simp only [List.isEmpty_iff] at he
    subst he
    simp
  · simp only [List.isEmpty_iff] at he
    simp [List.filter, List.isEmpty_eq_false.mpr he, he]

theorem splitSpec_of_ns_zero {s : Bytes} (h : next_separator s = some 0) :
    splitSpec s = splitSpec (s.drop 1) := by
  rw [splitSpec, splitAllKeepEmpty_of_ns_some h]
  simp [splitSpec]

theorem splitSpec_of_ns_some {s : Bytes} {i : Nat}
    (h : next_separator s = some i) (hi : i ≠ 0) :
    splitSpec s = s.take i :: splitSpec (s.drop (i + 1)) := by
  have hlt := next_separator_lt h
  rw [splitSpec, splitAllKeepEmpty_of_ns_some h]
  have hne : s.take i ≠ [] := by
    intro hcon
    rw [List.take_eq_nil_iff] at hcon
    rcases hcon with rfl | rfl
    · exact hi rfl
    · simp at hlt
  simp [List.filter, List.isEmpty_eq_false.mpr hne, splitSpec]

/-- The forward iteration of the split algorithm produces exactly the maximal
non-empty runs between separator bytes. -/
theorem splitForward_eq_splitSpec (s : Bytes) : splitForward s = splitSpec s := by
  suffices h : ∀ (n : Nat) (s : Bytes), s.length ≤ n → splitForward s = splitSpec s by
    exact h s.length s (Nat.le_refl _)
  intro n
  induction n with
  | zero =>
    intro s hs
    have hnil : s = [] := by
      cases s with
      | nil => rfl
      | cons a l => simp at hs
    subst hnil
    rw [splitForward_of_next_none (by rw [next_of_ns_none (by rfl)]; rfl)]
    simp [splitSpec, splitAllKeepEmpty]
  | succ n ih =>
    intro s hs
    match hns : next_separator s with
    | none =>
      by_cases he : s.isEmpty
      · rw [splitForward_of_next_none (by rw [next_of_ns_none hns, if_pos he])]
        rw [splitSpec_of_ns_none hns, if_pos he]
      · have hnext : PathEnvSplit.next s = (some s, []) := by
          rw [next_of_ns_none hns, if_neg he]
        rw [splitForward_of_next_some hnext]
        rw [splitForward_of_next_none (by rw [next_of_ns_none (by rfl)]; rfl)]
        rw [splitSpec_of_ns_none hns, if_neg he]
    | some 0 =>
      have hpos : 0 < s.length := next_separator_lt hns
      have heq : splitForward s = splitForward (s.drop 1) := by
        rw [splitForward.eq_def, splitForward.eq_def (s.drop 1), next_of_ns_zero hns]
      rw [heq, ih (s.drop 1) (by simp; omega), splitSpec_of_ns_zero hns]
    | some (i + 1) =>
      have hlt := next_separator_lt hns
      rw [splitForward_of_next_some (next_of_ns_some hns (by omega))]
      rw [ih (s.drop (i + 1 + 1)) (by simp; omega)]
      rw [splitSpec_of_ns_some hns (by omega)]

/-- A cached segment: in the source a `*const Path` pointing into the
container's buffer.  A pointer is buffer base + offset, so it is modelled as
the reallocation-invariant (offset, length) view it denotes. -/
structure Seg where
  off : Nat
  len : Nat
deriving DecidableEq, Repr

/-- The bytes that a cached segment denotes in buffer `buf` (dereferencing
the slice pointer). -/
def Seg.content (buf : Bytes) (s : Seg) : Bytes :=
  (buf.drop s.off).take s.len

/-- Running the split iterator over the suffix `buf[pos..]` and collecting
every yielded slice, each slice as an (offset, length) view into `buf`
(the source collects `&Path` slices, i.e. pointers into the buffer). -/
def splitSegs (buf : Bytes) (pos : Nat) : List Seg :=
  match h : next_separator (buf.drop pos) with
  | some i =>
    if i = 0 then splitSegs buf (pos + 1)
    else ⟨pos, i⟩ :: splitSegs buf (pos + i + 1)
  | none =>
    if pos < buf.length then [⟨pos, buf.length - pos⟩] else []
termination_by buf.length - pos
decreasing_by
  · have := next_separator_lt h
    simp at this
    omega
  · have := next_separator_lt h
    simp at this
    omega

theorem splitSegs_of_ns_none {buf : Bytes} {pos : Nat}
    (h : next_separator (buf.drop pos) = none) :
    splitSegs buf pos =
      if pos < buf.length then [⟨pos, buf.length - pos⟩] else [] := by
  rw [splitSegs.eq_def]
  split
  next i heq => rw [h] at heq; cases heq
  next heq => rfl

theorem splitSegs_of_ns_zero {buf : Bytes} {pos : Nat}
    (h : next_separator (buf.drop pos) = some 0) :
    splitSegs buf pos = splitSegs buf (pos + 1) := by
  rw [splitSegs.eq_def]
  split
  next i heq =>
    rw [h] at heq
    injection heq with heq
    subst heq
    simp
  next heq => rw [h] at heq; cases heq

theorem splitSegs_of_ns_some {buf : Bytes} {pos i : Nat}
    (h : next_separator (buf.drop pos) = some i) (hi : i ≠ 0) :
    splitSegs buf pos = ⟨pos, i⟩ :: splitSegs buf (pos + i + 1) := by
  rw [splitSegs.eq_def]
  split
  next j heq =>
    rw [h] at heq
    injection heq with heq
    subst heq
    rw [if_neg hi]
  next heq => rw [h] at heq; cases heq

/-- The contents of the slices collected by the split iterator over
`buf[pos..]` are exactly the maximal non-empty runs of `buf[pos..]`. -/
theorem splitSegs_map_content (buf : Bytes) (pos : Nat) :
    (splitSegs buf pos).map (Seg.content buf) = splitSpec (buf.drop pos) := by
  suffices h : ∀ (n : Nat) (pos : Nat), buf.length - pos ≤ n →
      (splitSegs buf pos).map (Seg.content buf) = splitSpec (buf.drop pos) by
    exact h (buf.length - pos) pos (Nat.le_refl _)
  intro n
  induction n with
  | zero =>
    intro pos hn
    have hge : buf.length ≤ pos := by omega
    have hdrop : buf.drop pos = [] := List.drop_eq_nil_of_le hge
    rw [splitSegs_of_ns_none (by rw [hdrop]; rfl), if_neg (by omega), hdrop]
    simp [splitSpec, splitAllKeepEmpty]
  | succ n ih =>
    intro pos hn
    match hns : next_separator (buf.drop pos) with
    | none =>
      rw [splitSegs_of_ns_none hns, splitSpec_of_ns_none hns]
      by_cases hlt : pos < buf.length
      · rw [if_pos hlt, if_neg (by simp [List.isEmpty_iff, List.drop_eq_nil_iff]; omega)]
        simp only [List.map]
        rw [Seg.content]
        simp [List.take_of_length_le]
      · rw [if_neg hlt, if_pos (by simp [List.isEmpty_iff, List.drop_eq_nil_iff]; omega)]
        rfl
    | some 0 =>
      have hpos := next_separator_lt hns
      simp only [List.length_drop] at hpos
      rw [splitSegs_of_ns_zero hns, splitSpec_of_ns_zero hns]
      have : (buf.drop pos).drop 1 = buf.drop (pos + 1) := by
        rw [List.drop_drop]
      rw [this]
      exact ih (pos + 1) (by omega)
    | some (i + 1) =>
      have hlt := next_separator_lt hns
      simp only [List.length_drop] at hlt
      rw [splitSegs_of_ns_some hns (by omega), splitSpec_of_ns_some hns (by omega)]
      simp only [List.map]
      have hdd : (buf.drop pos).drop (i + 1 + 1) = buf.drop (pos + (i + 1) + 1) := by
        rw [List.drop_drop]
        congr 1
      rw [hdd, Seg.content, ih (pos + (i + 1) + 1) (by omega)]

/-- `PathEnv` (src/lib.rs:138-146): owns the raw `PATH` text (`path`) and a
pre-separated list of its components (`parts`), which in the source are
`*const Path` pointers into `path`, modelled as (offset, length) views. -/
structure PathEnv where
  path : Bytes
  parts : List Seg
deriving DecidableEq, Repr

/-- `PathEnv::empty`. -/
def PathEnv.empty : PathEnv := ⟨[], []⟩

/-- `impl From<OsString> for PathEnv`: keeps the text as the buffer and runs
one full split pass to build the cache. -/
def PathEnv.fromOsString (path : Bytes) : PathEnv :=
  ⟨path, splitSegs path 0⟩

/-- `PathEnv::as_os_str`: the raw text of `self`, returned verbatim. -/
def PathEnv.as_os_str (p : PathEnv) : Bytes := p.path

/-- `PathEnv::into_os_string`. -/
def PathEnv.into_os_string (p : PathEnv) : Bytes := p.path

/-- `PathEnv::_parts` with every pointer dereferenced: the decoded segment
sequence, each part read against the current buffer. -/
def PathEnv.segs (p : PathEnv) : List Bytes := p.parts.map (Seg.content p.path)

/-- `PathEnv::len`. -/
def PathEnv.len (p : PathEnv) : Nat := p.parts.length

/-- `PathEnv::is_empty`. -/
def PathEnv.is_empty (p : PathEnv) : Bool := p.parts.isEmpty

/-- `PathEnv::clear`: clears both the cache and the buffer. -/
def PathEnv.clear (_p : PathEnv) : PathEnv := ⟨[], []⟩

/-- `PathEnv::get`: the decoded part at `index`. -/
def PathEnv.get (p : PathEnv) (index : Nat) : Option Bytes := p.segs.get? index

/-- `Clone for PathEnv`: copies the buffer and rebases every cached pointer
by the allocation delta; offsets and contents are unchanged, so on the
(offset, length) view it is the identity. -/
def PathEnv.clone (p : PathEnv) : PathEnv := p

/-- `PathEnv::reconstruct_back`: called after appending to the buffer
(`old_len` is the buffer length before the append).  A reallocation only
rebases the old pointers (offsets unchanged); the split iterator is re-run
over the appended suffix only and its slices are appended to the cache. -/
def PathEnv.reconstruct_back (p : PathEnv) (old_len : Nat) : PathEnv :=
  ⟨p.path, p.parts ++ splitSegs p.path old_len⟩

/-- `PathEnv::push_back`: returns unchanged on an empty path; otherwise
appends a separator (unless the container is empty) followed by the path,
then reconstructs the cache from the old buffer length. -/
def PathEnv.push_back (p : PathEnv) (path : Bytes) : PathEnv :=
  if path.isEmpty then p
  else
    let old_len := p.path.length
    let q : PathEnv :=
      if p.is_empty then ⟨p.path ++ path, p.parts⟩
      else ⟨p.path ++ separator.U8 :: path, p.parts⟩
    q.reconstruct_back old_len

/-- `impl Extend<P> for PathEnv`: pushes the first new part directly onto the
buffer (the source pushes no separator before it), then each further part
preceded by a separator, and reconstructs the cache from the old length. -/
def PathEnv.extend (p : PathEnv) (part_iter : List Bytes) : PathEnv :=
  match part_iter with
  | [] => p
  | part :: rest =>
    let old_len := p.path.length
    let buf := rest.foldl (fun b q => b ++ separator.U8 :: q) (p.path ++ part)
    PathEnv.reconstruct_back ⟨buf, p.parts⟩ old_len

/-- `impl FromIterator<P> for PathEnv`: joins the parts with single
separators and converts the result via `From<OsString>` (a full split). -/
def PathEnv.from_iter (parts : List Bytes) : PathEnv :=
  match parts with
  | [] => PathEnv.empty
  | part :: rest =>
    PathEnv.fromOsString (rest.foldl (fun b q => b ++ separator.U8 :: q) part)

/-- `PathEnv::pop_back_n`: computes the surviving count `i = len - n`
(saturating subtraction), the cut pointer (the buffer start when `i = 0`,
otherwise the end pointer of part `i - 1`), truncates the buffer at the cut
and the cache to `i`. -/
def PathEnv.pop_back_n (p : PathEnv) (n : Nat) : PathEnv :=
  match p.len - n with
  | 0 => ⟨p.path.take 0, p.parts.take 0⟩
  | i =>
    match p.parts.get? (i - 1) with
    | some part => ⟨p.path.take (part.off + part.len), p.parts.take i⟩
    | none => p

/-- `PathEnv::pop_back`. -/
def PathEnv.pop_back (p : PathEnv) : PathEnv := p.pop_back_n 1

/-- `normalize` (src/lib.rs:98-115): re-renders the split pieces joined with
single separators; the for-loop over the remaining iterator items is the
fold over the yielded sequence. -/
def normalize (path : Bytes) : Bytes :=
  match splitForward path with
  | [] => []
  | part :: rest => rest.foldl (fun result q => result ++ separator.U8 :: q) part

/-- Byte-wise lexicographic comparison of two segments.  The source compares
segments as `Path` values; segment content is opaque bytes in this model, so
the element order is byte order. -/
def bytesCmp : Bytes → Bytes → Ordering
  | [], [] => .eq
  | [], _ :: _ => .lt
  | _ :: _, [] => .gt
  | x :: xs, y :: ys =>
    match compare x y with
    | .eq => bytesCmp xs ys
    | c => c

/-- Lexicographic comparison of two segment sequences, element-wise with the
shorter sequence (a strict initial run of the other) comparing as less:
the order `Ord` gives `VecDeque` in the source. -/
def segsCmp : List Bytes → List Bytes → Ordering
  | [], [] => .eq
  | [], _ :: _ => .lt
  | _ :: _, [] => .gt
  | x :: xs, y :: ys =>
    match bytesCmp x y with
    | .eq => segsCmp xs ys
    | c => c

/-- `impl PartialEq for PathEnv` (src/cmp.rs:7-13): compares the decoded
`parts`, not the raw text. -/
def PathEnv.beq (p other : PathEnv) : Bool := p.segs == other.segs

/-- `impl Ord for PathEnv` (src/cmp.rs:80-87): compares the decoded `parts`
sequences lexicographically. -/
def PathEnv.cmp (p other : PathEnv) : Ordering := segsCmp p.segs other.segs

/-- The loop of `impl PartialOrd<OsStr> for PathEnv` (src/cmp.rs:89-110):
walks the cached parts against a lazy split iterator over the raw text. -/
def cmpOsStrLoop : List Bytes → Bytes → Ordering
  | [], st =>
    match PathEnvSplit.next st with
    | (some _, _) => .lt
    | (none, _) => .eq
  | part :: rest, st =>
    match PathEnvSplit.next st with
    | (some q, st') =>
      match bytesCmp part q with
      | .eq => cmpOsStrLoop rest st'
      | c => c
    | (none, _) => .gt

/-- `impl PartialOrd<OsStr> for PathEnv`: the source always returns
`Some(ordering)`; the `Option` layer is dropped here. -/
def PathEnv.cmp_os_str (p : PathEnv) (path : Bytes) : Ordering :=
  cmpOsStrLoop p.segs path

/-- `impl PartialEq<OsStr> for PathEnv` (src/cmp.rs:17-22):
`self.partial_cmp(path) == Some(Ordering::Equal)`. -/
def PathEnv.eq_os_str (p : PathEnv) (path : Bytes) : Bool :=
  p.cmp_os_str path == Ordering.eq

/-- The buffer ends exactly at the end of the last cached part (and is empty
when there are no parts): no stray bytes after the last segment. -/
def PathEnv.tidyEnd (p : PathEnv) : Bool :=
  match p.parts.getLast? with
  | none => p.path.isEmpty
  | some s => s.off + s.len == p.path.length

theorem splitAllKeepEmpty_append (a e : Bytes) :
    splitAllKeepEmpty (a ++ separator.U8 :: e) =
      splitAllKeepEmpty a ++ splitAllKeepEmpty e := by
  induction a with
  | nil => simp [splitAllKeepEmpty]
  | cons b bs ih =>
    by_cases hb : b = separator.U8
    · rw [List.cons_append, splitAllKeepEmpty, if_pos hb, ih,
        splitAllKeepEmpty, if_pos hb, List.cons_append]
    · rw [List.cons_append, splitAllKeepEmpty, if_neg hb, ih,
        splitAllKeepEmpty, if_neg hb]
      match h : splitAllKeepEmpty bs with
      | q :: qs => simp
      | [] => exact absurd h (splitAllKeepEmpty_ne_nil bs)

theorem splitSpec_append (a e : Bytes) :
    splitSpec (a ++ separator.U8 :: e) = splitSpec a ++ splitSpec e := by
  rw [splitSpec, splitAllKeepEmpty_append, List.filter_append]
  rfl

theorem splitAllKeepEmpty_sep_free {s q : Bytes}
    (hq : q ∈ splitAllKeepEmpty s) : ∀ b ∈ q, b ≠ separator.U8 := by
  induction s generalizing q with
  | nil =>
    simp [splitAllKeepEmpty] at hq
    subst hq
    simp
  | cons c cs ih =>
    simp only [splitAllKeepEmpty] at hq
    by_cases hc : c = separator.U8
    · rw [if_pos hc] at hq
      rcases List.mem_cons.mp hq with rfl | hq'
      · simp
      · exact ih hq'
    · rw [if_neg hc] at hq
      match h : splitAllKeepEmpty cs with
      | q' :: qs =>
        rw [h] at hq
        rcases List.mem_cons.mp hq with rfl | hq'
        · intro b hb
          rcases List.mem_cons.mp hb with rfl | hb'
          · exact hc
          · exact ih (h ▸ List.mem_cons_self q' qs) b hb'
        · exact ih (h ▸ List.mem_cons_of_mem q' hq')
      | [] => exact absurd h (splitAllKeepEmpty_ne_nil cs)

theorem splitSpec_mem {s q : Bytes} (hq : q ∈ splitSpec s) :
    q ≠ [] ∧ ∀ b ∈ q, b ≠ separator.U8 := by
  rw [splitSpec] at hq
  have h1 := List.of_mem_filter hq
  have h2 := List.mem_of_mem_filter hq
  refine ⟨?_, splitAllKeepEmpty_sep_free h2⟩
  simpa using h1

theorem next_separator_of_sep_free {s : Bytes}
    (h : ∀ b ∈ s, b ≠ separator.U8) : next_separator s = none := by
  induction s with
  | nil => rfl
  | cons b bs ih =>
    rw [next_separator, if_neg (h b (List.mem_cons_self b bs))]
    rw [ih (fun c hc => h c (List.mem_cons_of_mem b hc))]
    rfl

theorem splitSpec_singleton {s : Bytes} (hne : s ≠ [])
    (h : ∀ b ∈ s, b ≠ separator.U8) : splitSpec s = [s] := by
  rw [splitSpec_of_ns_none (next_separator_of_sep_free h),
    if_neg (by simpa [List.isEmpty_iff] using hne)]

theorem splitSpec_foldl :
    ∀ (rest : List Bytes) (acc : Bytes),
      (∀ q ∈ rest, q ≠ [] ∧ ∀ b ∈ q, b ≠ separator.U8) →
      splitSpec (rest.foldl (fun a q => a ++ separator.U8 :: q) acc) =
        splitSpec acc ++ rest := by
  intro rest
  induction rest with
  | nil => intro acc _; simp
  | cons q rest ih =>
    intro acc hmem
    have hq := hmem q (List.mem_cons_self q rest)
    rw [List.foldl_cons,
      ih (acc ++ separator.U8 :: q) (fun r hr => hmem r (List.mem_cons_of_mem q hr)),
      splitSpec_append, splitSpec_singleton hq.1 hq.2]
    simp

theorem normalize_congr {x y : Bytes} (h : splitForward x = splitForward y) :
    normalize x = normalize y := by
  unfold normalize
  rw [h]

theorem splitSpec_normalize (x : Bytes) :
    splitSpec (normalize x) = splitSpec x := by
  match h : splitForward x with
  | [] =>
    rw [normalize, h]
    rw [splitForward_eq_splitSpec] at h
    rw [h]
    rfl
  | part :: rest =>
    have hmem : ∀ q ∈ part :: rest, q ≠ [] ∧ ∀ b ∈ q, b ≠ separator.U8 := by
      intro q hq
      apply splitSpec_mem
      rw [← splitForward_eq_splitSpec, h]
      exact hq
    rw [normalize, h,
      splitSpec_foldl rest part (fun q hq => hmem q (List.mem_cons_of_mem part hq)),
      splitSpec_singleton (hmem part (List.mem_cons_self part rest)).1
        (hmem part (List.mem_cons_self part rest)).2]
    rw [List.singleton_append, ← h, splitForward_eq_splitSpec]

theorem normalize_idem (x : Bytes) : normalize (normalize x) = normalize x := by
  apply normalize_congr
  rw [splitForward_eq_splitSpec, splitForward_eq_splitSpec, splitSpec_normalize]

theorem next_back_of_nsb_some (path : Bytes) (i : Nat)
    (h : next_separator_back path = some i)
    (hne : (path.drop (i + 1)).isEmpty = false) :
    PathEnvSplit.next_back path = (some (path.drop (i + 1)), path.take i) := by
  rw [PathEnvSplit.next_back.eq_def]
  split
  next j heq =>
    rw [h] at heq
    injection heq with heq
    subst heq
    rw [if_neg (by simp [hne])]
  next heq => rw [h] at heq; cases heq

theorem next_back_of_nsb_none (path : Bytes)
    (h : next_separator_back path = none) :
    PathEnvSplit.next_back path =
      if path.isEmpty then (none, []) else (some path, []) := by
  rw [PathEnvSplit.next_back.eq_def]
  split
  next j heq => rw [h] at heq; cases heq
  next heq => rfl

/-- The decoded segment sequence of a freshly constructed container is the
split of the construction text. -/
theorem fromOsString_segs (x : Bytes) :
    (PathEnv.fromOsString x).segs = splitSpec x := by
  show (splitSegs x 0).map (Seg.content x) = splitSpec x
  rw [splitSegs_map_content, List.drop_zero]

/-- Concrete evaluation: extending the container built from "a" with ["b"]
yields the buffer "ab" with cached parts ["a", "b"]. -/
theorem extend_ab_eval :
    (PathEnv.fromOsString [97]).extend [[98]] =
      ⟨[97, 98], [⟨0, 1⟩, ⟨1, 1⟩]⟩ := by
  have hA : splitSegs [97] 0 = [⟨0, 1⟩] := by
    rw [splitSegs_of_ns_none (show next_separator (List.drop 0 [97]) = none by decide)]
    decide
  have hB : splitSegs [97, 98] 1 = [⟨1, 1⟩] := by
    rw [splitSegs_of_ns_none
      (show next_separator (List.drop 1 [97, 98]) = none by decide)]
    decide
  show (⟨[97, 98], splitSegs [97] 0 ++ splitSegs [97, 98] 1⟩ : PathEnv) = _
  rw [hA, hB]
  rfl

/-- Claim C10: `push_back` with an empty path is a no-op: the buffer and the
cached parts are left unchanged, and no separator byte is appended even when
the container is non-empty. -/
theorem c10_push_back_empty_noop (p : PathEnv) : p.push_back [] = p := by
  rw [PathEnv.push_back]
  rfl

/-- Claim C9: `pop_back_n` never fails: whenever the count is at least the
current length the subtraction saturates and the container is emptied
(length 0 and empty rendered text). -/
theorem c9_pop_back_n_saturates (p : PathEnv) (n : Nat) (h : p.len ≤ n) :
    (p.pop_back_n n).len = 0 ∧ (p.pop_back_n n).as_os_str = [] := by
  have h0 : p.len - n = 0 := by omega
  rw [PathEnv.pop_back_n.eq_def, h0]
  exact ⟨rfl, rfl⟩

theorem c9_pop_back_n_saturates_witness :
    ((⟨[97, 58, 98], [⟨0, 1⟩, ⟨2, 1⟩]⟩ : PathEnv).pop_back_n 5).len = 0 ∧
      ((⟨[97, 58, 98], [⟨0, 1⟩, ⟨2, 1⟩]⟩ : PathEnv).pop_back_n 5).as_os_str = [] :=
  c9_pop_back_n_saturates ⟨[97, 58, 98], [⟨0, 1⟩, ⟨2, 1⟩]⟩ 5 (by decide)

/-- Claim C8: `normalize` is idempotent: normalizing already-normalized text
changes nothing. -/
theorem c8_normalize_idempotent (x : Bytes) :
    normalize (normalize x) = normalize x :=
  normalize_idem x

/-- Claim C6: forward split yields exactly the maximal non-empty runs
between separator bytes in left-to-right order; consecutive, leading and
trailing separators contribute no segments, the empty and all-separator
inputs yield the empty sequence, and split "/a:/b::/c" yields
["/a", "/b", "/c"]. -/
theorem c6_forward_split_maximal_runs :
    (∀ x : Bytes, splitForward x = splitSpec x) ∧
      splitForward [] = [] ∧
      splitForward [58, 58, 58] = [] ∧
      splitForward [47, 97, 58, 47, 98, 58, 58, 47, 99] =
        [[47, 97], [47, 98], [47, 99]] := by
  refine ⟨splitForward_eq_splitSpec, ?_, ?_, ?_⟩ <;>
    rw [splitForward_eq_splitSpec] <;> decide

/-- Claim C2 counterexample: the container constructed from the
non-canonical text ":a" renders ":a" itself — the rendered text starts with
a separator byte and is not fixed by `normalize`, so rendering is not always
canonical. -/
theorem c2_render_not_canonical :
    (PathEnv.fromOsString [58, 97]).as_os_str = [58, 97] ∧
      ((PathEnv.fromOsString [58, 97]).as_os_str).head? = some separator.U8 ∧
      normalize ((PathEnv.fromOsString [58, 97]).as_os_str) ≠
        (PathEnv.fromOsString [58, 97]).as_os_str := by
  refine ⟨rfl, rfl, ?_⟩
  show normalize [58, 97] ≠ [58, 97]
  have h : splitForward [58, 97] = [[97]] := by
    rw [splitForward_eq_splitSpec]
    decide
  unfold normalize
  rw [h]
  decide

/-- Claim C2 (amended): rendering returns the buffer verbatim — a container
constructed from raw text x renders exactly x (canonical only when x is);
in particular, constructing from already-normalized text does render
canonical text. -/
theorem c2_render_verbatim :
    (∀ x : Bytes, (PathEnv.fromOsString x).as_os_str = x) ∧
      (∀ y : Bytes,
        normalize ((PathEnv.fromOsString (normalize y)).as_os_str) =
          (PathEnv.fromOsString (normalize y)).as_os_str) := by
  refine ⟨fun _ => rfl, fun y => ?_⟩
  show normalize (normalize y) = normalize y
  exact normalize_idem y

/-- Claim C1: backward iteration does not yield the reverse of forward
iteration.  `next_back` locates the separator with a reversed iterator (an
index counted from the back) but then slices with that index as if it were
counted from the front: on "ab:c" the forward sequence is ["ab", "c"]
(so its reverse is ["c", "ab"]), while backward iteration yields
[":c", "a"]. -/
theorem c1_backward_not_reverse_of_forward :
    splitBackward [97, 98, 58, 99] = [[58, 99], [97]] ∧
      (splitForward [97, 98, 58, 99]).reverse = [[99], [97, 98]] ∧
      splitBackward [97, 98, 58, 99] ≠ (splitForward [97, 98, 58, 99]).reverse := by
  have h1 : PathEnvSplit.next_back [97, 98, 58, 99] = (some [58, 99], [97]) := by
    rw [next_back_of_nsb_some [97, 98, 58, 99] 1 (by decide) (by decide)]
    decide
  have h2 : PathEnvSplit.next_back [97] = (some [97], []) := by
    rw [next_back_of_nsb_none [97] (by decide)]
    decide
  have h3 : PathEnvSplit.next_back ([] : Bytes) = (none, []) := by
    rw [next_back_of_nsb_none [] (by decide)]
    decide
  have hb : splitBackward [97, 98, 58, 99] = [[58, 99], [97]] := by
    rw [splitBackward_of_next_back_some h1, splitBackward_of_next_back_some h2,
      splitBackward_of_next_back_none h3]
  have hf : (splitForward [97, 98, 58, 99]).reverse = [[99], [97, 98]] := by
    rw [splitForward_eq_splitSpec]
    decide
  refine ⟨hb, hf, ?_⟩
  rw [hb, hf]
  decide

/-- Claim C3: `extend` breaks the cache invariant.  Extending the container
built from "a" with ["b"] pushes no separator before the first new entry:
the buffer becomes "ab", whose split is ["ab"], while the cache reads
["a", "b"]. -/
theorem c3_extend_breaks_invariant :
    ((PathEnv.fromOsString [97]).extend [[98]]).segs = [[97], [98]] ∧
      splitForward (((PathEnv.fromOsString [97]).extend [[98]]).as_os_str) =
        [[97, 98]] ∧
      ((PathEnv.fromOsString [97]).extend [[98]]).segs ≠
        splitForward (((PathEnv.fromOsString [97]).extend [[98]]).as_os_str) := by
  rw [extend_ab_eval]
  refine ⟨by decide, ?_, ?_⟩
  · show splitForward [97, 98] = [[97, 98]]
    rw [splitForward_eq_splitSpec]
    decide
  · show _ ≠ splitForward [97, 98]
    rw [splitForward_eq_splitSpec]
    decide

/-- Claim C7: the construct/render round trip fails on a reachable
container: the container built from "a" and extended with ["b"] decodes to
["a", "b"], but constructing a new container from its rendered text "ab"
decodes to ["ab"]. -/
theorem c7_roundtrip_fails :
    (PathEnv.fromOsString
        (((PathEnv.fromOsString [97]).extend [[98]]).as_os_str)).segs =
      [[97, 98]] ∧
      ((PathEnv.fromOsString [97]).extend [[98]]).segs = [[97], [98]] ∧
      (PathEnv.fromOsString
          (((PathEnv.fromOsString [97]).extend [[98]]).as_os_str)).segs ≠
        ((PathEnv.fromOsString [97]).extend [[98]]).segs := by
  rw [extend_ab_eval]
  refine ⟨?_, by decide, ?_⟩
  · rw [fromOsString_segs]
    decide
  · rw [fromOsString_segs]
    decide

theorem cmpOsStrLoop_eq_segsCmp :
    ∀ (parts : List Bytes) (st : Bytes),
      cmpOsStrLoop parts st = segsCmp parts (splitForward st) := by
  intro parts
  induction parts with
  | nil =>
    intro st
    match h : PathEnvSplit.next st with
    | (some q, st') =>
      rw [splitForward_of_next_some h, cmpOsStrLoop, h]
      rfl
    | (none, st') =>
      rw [splitForward_of_next_none h, cmpOsStrLoop, h]
      rfl
  | cons part rest ih =>
    intro st
    match h : PathEnvSplit.next st with
    | (some q, st') =>
      rw [splitForward_of_next_some h, cmpOsStrLoop, h, segsCmp]
      show (match bytesCmp part q with
          | Ordering.eq => cmpOsStrLoop rest st'
          | c => c) =
        (match bytesCmp part q with
          | Ordering.eq => segsCmp rest (splitForward st')
          | c => c)
      match hb : bytesCmp part q with
      | .eq => exact ih st'
      | .lt => rfl
      | .gt => rfl
    | (none, st') =>
      rw [splitForward_of_next_none h, cmpOsStrLoop, h, segsCmp]

theorem bytesCmp_self : ∀ (x : Bytes), bytesCmp x x = .eq := by
  intro x
  induction x with
  | nil => rfl
  | cons b bs ih =>
    rw [bytesCmp]
    have : compare b b = Ordering.eq := by
      simp [Nat.compare_eq_eq]
    rw [this]
    exact ih

theorem segsCmp_self_append :
    ∀ (s t : List Bytes), segsCmp s (s ++ t) = if t.isEmpty then .eq else .lt := by
  intro s
  induction s with
  | nil =>
    intro t
    match t with
    | [] => rfl
    | q :: qs => rfl
  | cons x xs ih =>
    intro t
    rw [List.cons_append, segsCmp, bytesCmp_self]
    exact ih t

/-- Claim C5: equality and ordering are determined solely by the decoded
segment sequences, never by the raw text: container-vs-container equality
and order compare the decoded parts element-wise; container-vs-raw-text
order equals the lexicographic comparison of the container's decoded
sequence against the split of the raw text, a strict initial subsequence
comparing as less; consequently the container built from "a:b" compares
equal to the raw text "a:b:" that differs by a trailing separator. -/
theorem c5_cmp_by_decoded_segments :
    (∀ p other : PathEnv,
        p.beq other = (p.segs == other.segs) ∧
        p.cmp other = segsCmp p.segs other.segs) ∧
      (∀ (p : PathEnv) (x : Bytes),
        p.cmp_os_str x = segsCmp p.segs (splitForward x)) ∧
      (∀ s t : List Bytes, segsCmp s (s ++ t) = if t.isEmpty then .eq else .lt) ∧
      (PathEnv.fromOsString [97, 58, 98]).eq_os_str [97, 58, 98, 58] = true := by
  refine ⟨fun p other => ⟨rfl, rfl⟩, fun p x => cmpOsStrLoop_eq_segsCmp p.segs x,
    segsCmp_self_append, ?_⟩
  rw [PathEnv.eq_os_str, PathEnv.cmp_os_str, cmpOsStrLoop_eq_segsCmp,
    fromOsString_segs, splitForward_eq_splitSpec]
  decide

theorem pop_back_n_saturate {p : PathEnv} {n : Nat} (h : p.len ≤ n) :
    p.pop_back_n n = ⟨[], []⟩ := by
  have h0 : p.len - n = 0 := by omega
  rw [PathEnv.pop_back_n.eq_def, h0]
  rfl

theorem pop_back_n_step {p : PathEnv} {n i : Nat} (hi : p.len - n = i) (hne : i ≠ 0)
    {part : Seg} (hget : p.parts.get? (i - 1) = some part) :
    p.pop_back_n n = ⟨p.path.take (part.off + part.len), p.parts.take i⟩ := by
  rw [PathEnv.pop_back_n.eq_def, hi]
  match i, hne, hget with
  | (j + 1), _, hget =>
    show (match p.parts.get? (j + 1 - 1) with
      | some part => (⟨p.path.take (part.off + part.len), p.parts.take (j + 1)⟩ : PathEnv)
      | none => p) = _
    rw [hget]

/-- Claim C4 (amended): provided the buffer ends exactly at the end of the
last cached part (and is empty when there are no parts) and the pushed entry
decodes to exactly one segment, `push_back` followed by `pop_back_n 1`
restores the container exactly — both the decoded segment sequence and the
rendered text. -/
theorem c4_push_pop_restores (p : PathEnv) (e : Bytes)
    (htidy : p.tidyEnd = true) (he : (splitSpec e).length = 1) :
    (p.push_back e).pop_back_n 1 = p := by
  obtain ⟨path, parts⟩ := p
  have hene : e.isEmpty = false := by
    cases e with
    | nil => simp [splitSpec, splitAllKeepEmpty] at he
    | cons a l => rfl
  rw [PathEnv.push_back, if_neg (by simp [hene])]
  cases parts with
  | nil =>
    have hpath : path = [] := by
      simp only [PathEnv.tidyEnd, List.getLast?] at htidy
      simpa [List.isEmpty_iff] using htidy
    subst hpath
    show (PathEnv.pop_back_n ⟨e, splitSegs e 0⟩ 1) = ⟨[], []⟩
    have hlen : (splitSegs e 0).length = 1 := by
      have h2 := congrArg List.length (splitSegs_map_content e 0)
      rw [List.drop_zero] at h2
      simp only [List.length_map] at h2
      rw [h2, he]
    have hsat : (PathEnv.len ⟨e, splitSegs e 0⟩) ≤ 1 := by
      simp [PathEnv.len, hlen]
    rw [pop_back_n_saturate hsat]
  | cons prt l =>
    match hl : (prt :: l).getLast? with
    | none =>
      rw [List.getLast?_eq_none_iff] at hl
      cases hl
    | some last =>
      have hend : last.off + last.len = path.length := by
        simp only [PathEnv.tidyEnd, hl, beq_iff_eq] at htidy
        exact htidy
      show (PathEnv.pop_back_n
        ⟨path ++ separator.U8 :: e,
          (prt :: l) ++ splitSegs (path ++ separator.U8 :: e) path.length⟩ 1) =
        ⟨path, prt :: l⟩
      have hmap := splitSegs_map_content (path ++ separator.U8 :: e) path.length
      rw [List.drop_left] at hmap
      have hsep : splitSpec (separator.U8 :: e) = splitSpec e := by
        have h0 : next_separator (separator.U8 :: e) = some 0 := by
          rw [next_separator, if_pos rfl]
        have := splitSpec_of_ns_zero h0
        simpa using this
      have hlen : (splitSegs (path ++ separator.U8 :: e) path.length).length = 1 := by
        have h2 := congrArg List.length hmap
        simp only [List.length_map] at h2
        rw [h2, hsep, he]
      obtain ⟨s, hs⟩ := List.length_eq_one.mp hlen
      rw [hs]
      have hi : (PathEnv.len ⟨path ++ separator.U8 :: e, (prt :: l) ++ [s]⟩) - 1 =
          l.length + 1 := by
        simp [PathEnv.len]
      have hget : ((prt :: l) ++ [s]).get? (l.length + 1 - 1) = some last := by
        rw [Nat.add_sub_cancel, List.get?_append (by simp)]
        rw [← hl, List.getLast?_eq_get?]
        simp
      rw [pop_back_n_step hi (by omega) hget]
      have ht1 : (path ++ separator.U8 :: e).take (last.off + last.len) = path := by
        rw [hend, List.take_left]
      have ht2 : ((prt :: l) ++ [s]).take (l.length + 1) = prt :: l := by
        rw [List.take_left' (by simp)]
      rw [ht1, ht2]

theorem c4_push_pop_restores_witness :
    ((⟨[97], [⟨0, 1⟩]⟩ : PathEnv).push_back [98]).pop_back_n 1 =
      ⟨[97], [⟨0, 1⟩]⟩ :=
  c4_push_pop_restores ⟨[97], [⟨0, 1⟩]⟩ [98] (by decide) (by decide)

/-- Claim C4 counterexample: with the container built from "a:" (trailing
separator) and the non-empty entry "b", `push_back` then `pop_back_n 1`
renders "a" instead of the original "a:" — the rendered text is not
restored, because the pop truncates the buffer to the end of the last
surviving segment, discarding the stray trailing separator. -/
theorem c4_push_pop_counterexample :
    (((PathEnv.fromOsString [97, 58]).push_back [98]).pop_back_n 1).as_os_str =
      [97] ∧
      (PathEnv.fromOsString [97, 58]).as_os_str = [97, 58] ∧
      (((PathEnv.fromOsString [97, 58]).push_back [98]).pop_back_n 1).as_os_str ≠
        (PathEnv.fromOsString [97, 58]).as_os_str := by
  have hA : splitSegs [97, 58] 0 = [⟨0, 1⟩] := by
    rw [splitSegs_of_ns_some (show next_separator (List.drop 0 [97, 58]) = some 1
        by decide) (by decide)]
    rw [splitSegs_of_ns_none (show next_separator (List.drop 2 [97, 58]) = none
        by decide)]
    decide
  have hB : splitSegs [97, 58, 58, 98] 2 = [⟨3, 1⟩] := by
    rw [splitSegs_of_ns_zero
      (show next_separator (List.drop 2 [97, 58, 58, 98]) = some 0 by decide)]
    rw [splitSegs_of_ns_none
      (show next_separator (List.drop 3 [97, 58, 58, 98]) = none by decide)]
    decide
  have hpush : (PathEnv.fromOsString [97, 58]).push_back [98] =
      ⟨[97, 58, 58, 98], [⟨0, 1⟩, ⟨3, 1⟩]⟩ := by
    rw [PathEnv.fromOsString, hA]
    show (⟨[97, 58, 58, 98], [⟨0, 1⟩] ++ splitSegs [97, 58, 58, 98] 2⟩ : PathEnv) = _
    rw [hB]
    rfl
  have hpop : (PathEnv.pop_back_n ⟨[97, 58, 58, 98], [⟨0, 1⟩, ⟨3, 1⟩]⟩ 1) =
      ⟨[97], [⟨0, 1⟩]⟩ := by
    rw [@pop_back_n_step ⟨[97, 58, 58, 98], [⟨0, 1⟩, ⟨3, 1⟩]⟩ 1 1 (by decide)
      (by decide) ⟨0, 1⟩ (by decide)]
    decide
  rw [hpush, hpop]
  exact ⟨rfl, rfl, by decide⟩

end PathEnvCrate
